import Mathlib

/-!
Verification development for the diff-computation pipeline of the
nix-diff-action repository.  JavaScript strings are modelled as `List Char`.
The external process boundary (git, nix, the dix tool) is modelled by
explicit environment parameters, mirroring how the repository's own test
suite injects mock services.
-/

set_option maxRecDepth 10000

/-! ## JavaScript string primitives -/

/-- JS line terminators (`\n`, `\r`, U+2028, U+2029), the characters excluded
by `.` and marking `^`/`$` boundaries with the `m` flag. -/
def isLineTerm (c : Char) : Bool :=
  c == '\n' || c == '\r' || c == Char.ofNat 0x2028 || c == Char.ofNat 0x2029

/-- Characters matched by the JS `\s` class and removed by `String.prototype.trim`
(ASCII whitespace, NBSP, the line separators and the BOM; the rarer Unicode
`Zs` code points are omitted, none of the repository's inputs contain them). -/
def isJsSpace (c : Char) : Bool :=
  c == ' ' || c == '\t' || c == '\n' || c == '\r' || c == Char.ofNat 11 ||
  c == Char.ofNat 12 || c == Char.ofNat 0xa0 || c == Char.ofNat 0x2028 ||
  c == Char.ofNat 0x2029 || c == Char.ofNat 0xfeff

/-- JS `String.prototype.trim`. -/
def jsTrim (cs : List Char) : List Char :=
  ((cs.dropWhile isJsSpace).reverse.dropWhile isJsSpace).reverse

/-- Bool test that a list starts with the given first argument. -/
def listStartsWith : List Char → List Char → Bool
  | [], _ => true
  | _ :: _, [] => false
  | p :: ps, c :: cs => p == c && listStartsWith ps cs

/-- Bool test that a list ends with the given first argument. -/
def listEndsWith (suf l : List Char) : Bool :=
  listStartsWith suf.reverse l.reverse

/-- Split on `'\n'` exactly (JS `split("\n")`). -/
def splitNL : List Char → List (List Char)
  | [] => [[]]
  | c :: rest =>
    if c = '\n' then [] :: splitNL rest
    else
      match splitNL rest with
      | [] => [[c]]
      | l :: ls => (c :: l) :: ls

/-- Replace each (left-to-right, non-overlapping) CRLF pair by LF. -/
def crlfToLf : List Char → List Char
  | [] => []
  | [c] => [c]
  | c :: c2 :: rest =>
    if c = '\r' ∧ c2 = '\n' then '\n' :: crlfToLf rest
    else c :: crlfToLf (c2 :: rest)

/-- JS `split(/\r?\n/)`: a CRLF pair or a lone LF is a boundary, a lone CR is
ordinary text. -/
def splitLinesJS (cs : List Char) : List (List Char) :=
  splitNL (crlfToLf cs)

/-- JS `Array.prototype.join("\n")`. -/
def joinNL : List (List Char) → List Char
  | [] => []
  | [l] => l
  | l :: ls => l ++ '\n' :: joinNL ls

/-- Decimal digits of a natural number, as JS `String(n)` produces them. -/
def natDecimal (n : Nat) : List Char :=
  if n = 0 then ['0'] else (Nat.digits 10 n).reverse.map (fun d => Char.ofNat (48 + d))

/-! ## services/git.ts -/

/-- ASCII letters, digits and the hyphen: the class kept by `sanitizeBranchName`. -/
def isAlnumDash (c : Char) : Bool :=
  (65 ≤ c.toNat && c.toNat ≤ 90) || (97 ≤ c.toNat && c.toNat ≤ 122) ||
  (48 ≤ c.toNat && c.toNat ≤ 57) || c == '-'

/-- `git.ts`: `ref.replace(/[^a-zA-Z0-9-]/g, "-")`. -/
def sanitizeBranchName (ref : List Char) : List Char :=
  ref.map (fun c => if isAlnumDash c then c else '-')

/-- `git.ts` `createWorktree` path construction:
`join(realpathSync(tmpdir()), "dix-base-" + sanitizeBranchName(baseRef) + "-" + runId)`.
The resolved temp root is an environment parameter; `path.join` is modelled as
concatenation with a separator. -/
def worktreePathFor (tmpReal baseRef runId : List Char) : List Char :=
  tmpReal ++ '/' :: ("dix-base-".toList ++ sanitizeBranchName baseRef ++ '-' :: runId)

/-- Outcome of the `git worktree list --porcelain` probe: `some b` when the
listing ran and `b` records whether the recorded path occurred in its output;
`none` when the probe itself failed. -/
def worktreeExistsRun (probe : Option Bool) : Bool := probe.getD false

/-- Outcome of `exec.exec("git", args, { ignoreReturnCode })`:
`ran code` when the process ran (any exit code), `threw` when spawning failed. -/
inductive GitExecOutcome where
  | ran (exitCode : Int)
  | threw
deriving DecidableEq

/-- Tagged error of `git.ts` (`GitWorktreeError{operation, message}`). -/
structure GitWorktreeErrorS where
  operation : List Char
  message : List Char
deriving DecidableEq

/-- `git.ts` `execGit` with `ignoreReturnCode = true`: a non-zero exit still
resolves; only a spawn failure is an error. -/
def execGitIgnoringExit (out : GitExecOutcome) : Except GitWorktreeErrorS Int :=
  match out with
  | .ran code => .ok code
  | .threw => .error ⟨"worktree".toList, "Failed to execute git".toList⟩

/-- `Effect.ignore`: discard any outcome, succeed with unit and no error. -/
def ignoreExcept {e α : Type} (_x : Except e α) : Except Empty Unit := .ok ()

/-- `git.ts` `removeWorktree`: probe existence (a failed probe counts as
"does not exist"), force-remove only if it exists, ignore every failure.
The second component records whether `git worktree remove` was invoked. -/
def removeWorktreeRun (probe : Option Bool) (rem : GitExecOutcome) :
    Except Empty Unit × Bool :=
  if worktreeExistsRun probe then
    (ignoreExcept ((execGitIgnoringExit rem).map (fun _ => ())), true)
  else
    (ignoreExcept (Except.ok () : Except GitWorktreeErrorS Unit), false)

/-! ## services/nix.ts: execNix and getNixPath -/

/-- Captured result of one `nix` process: exit code (−1 when exec itself
threw, per `execNix`'s catch), raw stdout and stderr. -/
structure ExecResult where
  exitCode : Int
  stdout : List Char
  stderr : List Char
deriving DecidableEq

/-- `nix.ts` `execNix`: joins output chunks and trims both streams. The raw
process behaviour is the environment `env`, keyed by the argument vector. -/
def execNixR (env : List (List Char) → ExecResult) (args : List (List Char)) :
    ExecResult :=
  let r := env args
  ⟨r.exitCode, jsTrim r.stdout, jsTrim r.stderr⟩

/-- Argument vector of the forced realization (`nix build <ref> --no-link`). -/
def buildArgs (flakeRef : List Char) : List (List Char) :=
  ["build".toList, flakeRef, "--no-link".toList]

/-- Argument vector of the path query: realized output when `build`,
derivation path otherwise. -/
def pathInfoArgs (flakeRef : List Char) (build : Bool) : List (List Char) :=
  if build then ["path-info".toList, flakeRef]
  else ["path-info".toList, "--derivation".toList, flakeRef]

/-- JS `stderr || "unknown error"`: the empty string is falsy. -/
def orUnknownError (s : List Char) : List Char :=
  if s.isEmpty then "unknown error".toList else s

/-- Errors of `getNixPath` (`NixBuildError` / `NixPathInfoError`). -/
inductive NixPathError where
  | buildErr (flakeRef msg : List Char)
  | pathInfoErr (flakeRef msg : List Char)
deriving DecidableEq

/-- `nix.ts` `getNixPath`: when `build`, force realization first and fail with
`NixBuildError` on non-zero exit; then query path info, failing with
`NixPathInfoError` on non-zero exit or empty output. -/
def getNixPath (env : List (List Char) → ExecResult) (flakeRef : List Char)
    (build : Bool) : Except NixPathError (List Char) :=
  if build ∧ (execNixR env (buildArgs flakeRef)).exitCode ≠ 0 then
    .error (.buildErr flakeRef
      (orUnknownError (execNixR env (buildArgs flakeRef)).stderr))
  else
    let q := execNixR env (pathInfoArgs flakeRef build)
    if q.exitCode ≠ 0 then
      .error (.pathInfoErr flakeRef (orUnknownError q.stderr))
    else if q.stdout.isEmpty then
      .error (.pathInfoErr flakeRef "nix path-info returned empty output".toList)
    else .ok q.stdout

/-! ## services/utils.ts: hasDixChanges

`diff.match(/^<<<\s*(.+)$/m)` with JS backtracking semantics.  At a `^`
position, after the literal marker, the greedy `\s*` consumes the maximal
whitespace run; `(.+)$` then captures the longest run of non-line-terminator
characters, which must be nonempty and end at a line boundary.  When the whole
tail is whitespace the engine backtracks `\s*`, which succeeds exactly on the
last non-terminator character. -/

/-- Capture of `\s*(.+)$` (multiline `$`) at a fixed position, following the
greedy-then-backtrack order of the JS engine. -/
def captureTail (cs : List Char) : Option (List Char) :=
  let rest := cs.dropWhile isJsSpace
  if rest.isEmpty then
    match cs.reverse.dropWhile isLineTerm with
    | [] => none
    | c :: _ => some [c]
  else some (rest.takeWhile (fun c => !isLineTerm c))

/-- Drop everything up to and including the first line terminator; `none`
when no terminator remains. -/
def skipToNextLine : List Char → Option (List Char)
  | [] => none
  | c :: rest => if isLineTerm c then some rest else skipToNextLine rest

/-- One match attempt of `^<marker>\s*(.+)$` at the current position, then
recursion on the next line start.  The fuel argument only bounds the
recursion depth (each step strictly shortens the list, see
`skipToNextLine_length`); `scanLines` supplies enough fuel for it never to
run out. -/
def scanLinesGo (marker : List Char) : Nat → List Char → Option (List Char)
  | 0, _ => none
  | fuel + 1, cs =>
    match (if listStartsWith marker cs then captureTail (cs.drop marker.length)
           else none) with
    | some cap => some cap
    | none =>
      match skipToNextLine cs with
      | none => none
      | some tl => scanLinesGo marker fuel tl

/-- First match of `^<marker>\s*(.+)$` with the `m` flag: the match attempt is
made at every line start, in order. -/
def scanLines (marker : List Char) (cs : List Char) : Option (List Char) :=
  scanLinesGo marker (cs.length + 1) cs

/-- `utils.ts` `hasDixChanges`: empty or whitespace-only diff reports no
change; otherwise capture the `<<<` and `>>>` path lines and compare their
trimmed captures, defaulting to "changed" when either fails to parse. -/
def hasDixChanges (diff : List Char) : Bool :=
  if (jsTrim diff).isEmpty then false
  else
    match scanLines "<<<".toList diff, scanLines ">>>".toList diff with
    | some b, some p => decide (jsTrim b ≠ jsTrim p)
    | _, _ => true

/-! ## services/utils.ts: the minor-update filter

`isNixpkgsMinorUpdateLine` applies `/^\[([A-Z.]+)\]\s+(\S+)\s+(.+?)\s+->\s+(.+)$/`
(no `m` flag: `^`/`$` are the string ends) to one line.  The leading
`\[([A-Z.]+)\]\s+(\S+)\s+` admits no backtracking (each quantified class is
followed by a character outside it), so those parts take their maximal runs;
the second `\s+` and the lazy `(.+?)` do backtrack and are searched in engine
order below. -/

/-- ASCII digit test (JS `\d`). -/
def isAsciiDigit (c : Char) : Bool := 48 ≤ c.toNat && c.toNat ≤ 57

/-- Upper-case ASCII letter test. -/
def isUpperAZ (c : Char) : Bool := 65 ≤ c.toNat && c.toNat ≤ 90

/-- Match `\s+(.+)$` anchored at the start of `V` ( `$` = absolute end),
returning the capture: the engine takes the longest whitespace prefix whose
remaining suffix is nonempty and free of line terminators. `j` counts the
whitespace characters still allowed to `\s+`. -/
def wsCapGo (V : List Char) : Nat → Option (List Char)
  | 0 => none
  | j + 1 =>
    let suf := V.drop (j + 1)
    if !suf.isEmpty && suf.all (fun c => !isLineTerm c) then some suf
    else wsCapGo V j

/-- Match `\s+(.+)$` anchored at the start of `V`. -/
def wsThenRestCapture (V : List Char) : Option (List Char) :=
  wsCapGo V (V.takeWhile isJsSpace).length

/-- Match `\s+->\s+(.+)$` anchored at the start of `U`.  The first `\s+` is
forced to the maximal run because `-` is not whitespace. -/
def arrowTail (U : List Char) : Option (List Char) :=
  let m := (U.takeWhile isJsSpace).length
  if m = 0 then none
  else if listStartsWith ['-', '>'] (U.drop m) then
    wsThenRestCapture (U.drop (m + 2))
  else none

/-- Match `(.+?)\s+->\s+(.+)$`: the lazy group grows one character at a time
(`acc` holds the reversed characters it has consumed) and the first position
where the arrow tail matches wins. -/
def lazyMidAux : List Char → List Char → Option (List Char × List Char)
  | _, [] => none
  | acc, c :: rest =>
    if isLineTerm c then none
    else
      match arrowTail rest with
      | some g4 => some (acc.reverse ++ [c], g4)
      | none => lazyMidAux (c :: acc) rest

/-- Match `\s+(.+?)\s+->\s+(.+)$` anchored at the start of `Q`: the leading
greedy `\s+` tries the longest run first and backtracks one character at a
time (the lazy dot can match whitespace). -/
def midWsGo (Q : List Char) : Nat → Option (List Char × List Char)
  | 0 => none
  | w + 1 =>
    match lazyMidAux [] (Q.drop (w + 1)) with
    | some r => some r
    | none => midWsGo Q w

/-- Match `\s+(.+?)\s+->\s+(.+)$` anchored at the start of `Q`. -/
def midWithWs (Q : List Char) : Option (List Char × List Char) :=
  midWsGo Q (Q.takeWhile isJsSpace).length

/-- Groups 1–4 of `/^\[([A-Z.]+)\]\s+(\S+)\s+(.+?)\s+->\s+(.+)$/` on a line,
or `none` when the line does not match. -/
def minorLineGroups (line : List Char) :
    Option (List Char × List Char × List Char × List Char) :=
  match line with
  | '[' :: rest =>
    let g1 := rest.takeWhile (fun c => isUpperAZ c || c == '.')
    if g1.isEmpty then none
    else
      match rest.drop g1.length with
      | ']' :: rest2 =>
        let m1 := (rest2.takeWhile isJsSpace).length
        if m1 = 0 then none
        else
          let rest3 := rest2.drop m1
          let g2 := rest3.takeWhile (fun c => !isJsSpace c)
          if g2.isEmpty then none
          else
            match midWithWs (rest3.drop g2.length) with
            | some (g3, g4) => some (g1, g2, g3, g4)
            | none => none
      | _ => none
  | _ => none

/-- Group 1 of `/^(\d+\.\d+)\..+\.drv$/`: the two digit runs are forced
maximal (each is followed by a literal dot), and `.+\.drv$` requires the
remainder to be a nonempty terminator-free prefix followed by `.drv` at the
very end. -/
def extractMajorMinor (v : List Char) : Option (List Char) :=
  let d1 := v.takeWhile isAsciiDigit
  if d1.isEmpty then none
  else
    match v.drop d1.length with
    | '.' :: rest1 =>
      let d2 := rest1.takeWhile isAsciiDigit
      if d2.isEmpty then none
      else
        match rest1.drop d2.length with
        | '.' :: rest2 =>
          if 5 ≤ rest2.length && listEndsWith ".drv".toList rest2
              && (rest2.take (rest2.length - 4)).all (fun c => !isLineTerm c)
          then some (d1 ++ '.' :: d2)
          else none
        | _ => none
    | _ => none

/-- `utils.ts` `isNixpkgsMinorUpdateLine`. -/
def isNixpkgsMinorUpdateLine (line : List Char) : Bool :=
  match minorLineGroups line with
  | none => false
  | some (g1, g2, g3, g4) =>
    if g1 = "U.".toList then
      if listStartsWith "nixos-system-".toList g2 || g2 == "darwin-system".toList then
        let before := jsTrim g3
        let after := jsTrim g4
        if before.contains ',' || after.contains ',' then false
        else if listEndsWith ".drv".toList before && listEndsWith ".drv".toList after then
          match extractMajorMinor before, extractMajorMinor after with
          | some b, some a => b == a
          | _, _ => false
        else false
      else false
    else false

/-- The second pass of `filterNixpkgsMinorUpdates`: drop a line when it trims
to `CHANGED` and the next remaining line trims to empty (the last line is
always kept, `filteredLines[i+1]` being `undefined` there). -/
def changedPass : List (List Char) → List (List Char)
  | [] => []
  | [x] => [x]
  | x :: y :: rest =>
    if jsTrim x = "CHANGED".toList ∧ jsTrim y = [] then changedPass (y :: rest)
    else x :: changedPass (y :: rest)

/-- `utils.ts` `filterNixpkgsMinorUpdates`. -/
def filterNixpkgsMinorUpdates (diff : List Char) : List Char :=
  if (jsTrim diff).isEmpty then diff
  else
    joinNL (changedPass
      ((splitLinesJS diff).filter (fun l => !isNixpkgsMinorUpdateLine l)))

/-! ## programs/full.ts: the diff pipeline orchestrator

The `NixService` and `GitService` dependencies are environment records, as in
the repository's own unit tests.  Each operation additionally appends its
invocation to an event trace, so that ordering and argument claims can be
stated; the sequential trace mirrors `Effect.all` without a `concurrency`
option and `Effect.forEach`, both of which run left to right and
short-circuit on the first error. -/

/-- One comparison target (`NixOutputConfig` of `schemas.ts`). -/
structure NixOutputConfig where
  displayName : List Char
  attr : List Char
deriving DecidableEq

/-- One result record (`DiffResult` of `schemas.ts`). -/
structure DiffResult where
  displayName : List Char
  attributePath : List Char
  baseRef : List Char
  prRef : List Char
  diff : List Char
deriving DecidableEq

/-- Errors of the per-target pipeline (`NixPathInfoError`, `NixBuildError`,
`NixDixError`). -/
inductive DiffErrorT where
  | pathInfoErr (flakeRef msg : List Char)
  | buildErr (flakeRef msg : List Char)
  | dixErr (basePath prPath msg : List Char)
deriving DecidableEq

/-- Error of `processDiffResults` (`GitWorktreeError` or a per-target error). -/
inductive PipelineError where
  | git (e : GitWorktreeErrorS)
  | nix (e : DiffErrorT)
deriving DecidableEq

/-- External nix invocations recorded by the orchestrator trace. -/
inductive NixEvent where
  | prefetch (flakeRef : List Char)
  | pathQuery (flakeRef : List Char) (build : Bool)
  | dixCall (basePath prPath inputsFrom : List Char)
deriving DecidableEq

/-- The `NixService` operations used by the orchestrator. -/
structure NixServiceEnv where
  pathInfo : List Char → Bool → Except DiffErrorT (List Char)
  dix : List Char → List Char → List Char → Except DiffErrorT (List Char)

/-- The services surrounding `processDiffResults`: worktree creation
(returning the checkout path), `nodePath.relative`, and the nix service. -/
structure OrchestratorEnv where
  createWorktree : List Char → List Char → Except GitWorktreeErrorS (List Char)
  relative : List Char → List Char → List Char
  nix : NixServiceEnv

/-- `"<flakeRef>#<attribute>"`. -/
def hashRef (flakeRef attr : List Char) : List Char := flakeRef ++ '#' :: attr

/-- `full.ts` `processNixOutput`: resolve the base-rooted and head-rooted
artifacts (sequentially, short-circuiting — `Effect.all` with no concurrency
option), then invoke dix with the worktree path as resolution context and
emit a `DiffResult` carrying the commit SHAs. -/
def processNixOutput (nix : NixServiceEnv) (config : NixOutputConfig)
    (baseFlakeRef prFlakeRef baseSha headSha : List Char) (build : Bool)
    (worktreePath : List Char) : Except DiffErrorT DiffResult × List NixEvent :=
  let baseRef := hashRef baseFlakeRef config.attr
  let prRef := hashRef prFlakeRef config.attr
  match nix.pathInfo baseRef build with
  | .error e => (.error e, [.pathQuery baseRef build])
  | .ok basePath =>
    match nix.pathInfo prRef build with
    | .error e => (.error e, [.pathQuery baseRef build, .pathQuery prRef build])
    | .ok prPath =>
      match nix.dix basePath prPath worktreePath with
      | .error e =>
        (.error e, [.pathQuery baseRef build, .pathQuery prRef build,
                    .dixCall basePath prPath worktreePath])
      | .ok diff =>
        (.ok ⟨config.displayName, config.attr, baseSha, headSha, diff⟩,
         [.pathQuery baseRef build, .pathQuery prRef build,
          .dixCall basePath prPath worktreePath])

/-- `Effect.forEach` over the targets: strictly sequential in declaration
order, aborting the remaining targets on the first error. -/
def runTargets (nix : NixServiceEnv) (baseFlakeRef prFlakeRef baseSha headSha : List Char)
    (build : Bool) (worktreePath : List Char) :
    List NixOutputConfig → Except DiffErrorT (List DiffResult) × List NixEvent
  | [] => (.ok [], [])
  | config :: rest =>
    let r := processNixOutput nix config baseFlakeRef prFlakeRef baseSha headSha build
      worktreePath
    match r.1 with
    | .error e => (.error e, r.2)
    | .ok d =>
      let rr := runTargets nix baseFlakeRef prFlakeRef baseSha headSha build worktreePath
        rest
      (rr.1.map (fun rs => d :: rs), r.2 ++ rr.2)

/-- Options of `processDiffResults` (`ProcessDiffOptions`). -/
structure RunOptions where
  attributes : List NixOutputConfig
  build : Bool
  directory : List Char
  baseRef : List Char
  baseSha : List Char
  headSha : List Char
  cwd : List Char
  runId : List Char

/-- The base flake reference: `path:<worktree>` or
`path:<worktree>?dir=<relative>` when `directory` is a proper subdirectory. -/
def baseFlakeRefFor (rel worktreePath : List Char) : List Char :=
  if rel = [] ∨ rel = ['.'] then "path:".toList ++ worktreePath
  else "path:".toList ++ worktreePath ++ "?dir=".toList ++ rel

/-- `full.ts` `processDiffResults`: create the worktree for the base ref,
build the two flake roots, prefetch both (failures swallowed, so prefetch
only contributes trace events), then process the targets sequentially. -/
def processDiffResults (env : OrchestratorEnv) (opts : RunOptions) :
    Except PipelineError (List DiffResult) × List NixEvent :=
  match env.createWorktree opts.baseRef opts.runId with
  | .error e => (.error (.git e), [])
  | .ok worktreePath =>
    let rel := env.relative opts.cwd opts.directory
    let baseFlakeRef := baseFlakeRefFor rel worktreePath
    let prFlakeRef := opts.directory
    let r := runTargets env.nix baseFlakeRef prFlakeRef opts.baseSha opts.headSha
      opts.build worktreePath opts.attributes
    (r.1.mapError .nix, .prefetch baseFlakeRef :: .prefetch prFlakeRef :: r.2)

/-! ## services/github.ts: report aggregation

Modelled from the spec: the implementation file `github.ts`
(`truncateDiff`, `sanitizeDisplayName`, `formatAggregatedComment`) is not part
of the sources, only its unit tests are; the definitions below follow §4.5 of
the specification and the observable behaviour fixed by those tests. -/

/-- Modelled from the spec: `sanitizeDisplayName` (of the missing
`github.ts`) strips Markdown metacharacters from a label; the stripped set is
fixed by the unit tests (backslash, asterisk, underscore, backtick, brackets,
parentheses, hash). -/
def mdSpecialChars : List Char :=
  ['\\', '*', '_', Char.ofNat 96, '[', ']', '(', ')', '#']

/-- Modelled from the spec: `sanitizeDisplayName` of the missing `github.ts`. -/
def sanitizeDisplayName (name : List Char) : List Char :=
  name.filter (fun c => !mdSpecialChars.contains c)

/-- The truncation marker `"\n\n... (truncated, <N> chars total)"` recording
the original total length. -/
def truncationMarker (total : Nat) : List Char :=
  "\n\n... (truncated, ".toList ++ natDecimal total ++ " chars total)".toList

/-- Result of `truncateDiff` (`TruncateResult` of the missing `github.ts`). -/
structure TruncateResult where
  text : List Char
  truncated : Bool
deriving DecidableEq

/-- Modelled from the spec: `truncateDiff` of the missing `github.ts` —
lengths strictly greater than the budget are cut to the budget and marked
with the original total length; lengths at or under the budget pass through
byte-for-byte. -/
def truncateDiff (diff : List Char) (maxLength : Nat) : TruncateResult :=
  if maxLength < diff.length then
    ⟨diff.take maxLength ++ truncationMarker diff.length, true⟩
  else ⟨diff, false⟩

/-- The global character budget for diff bodies (§4.5, and the unit tests'
`60000`). -/
def globalDiffBudget : Nat := 60000

/-- The host ceiling on comment length (§4.5: 65536 characters). -/
def commentHardCeiling : Nat := 65536

/-- Modelled from the spec: the report's identifying marker — result-specific
for exactly one target, generic otherwise — plus the report heading. -/
def commentHeader (results : List DiffResult) : List Char :=
  (match results with
   | [r] => "<!-- nix-diff-action:".toList ++ r.displayName ++ " -->".toList
   | _ => "<!-- nix-diff-action -->".toList) ++ "\n## Nix Diff\n".toList

/-- Modelled from the spec: one section body — `"No differences found"` for
an empty diff, the possibly-truncated diff otherwise. -/
def diffBody (perResultBudget : Nat) (r : DiffResult) : List Char :=
  if r.diff.isEmpty then "No differences found".toList
  else (truncateDiff r.diff perResultBudget).text

/-- Modelled from the spec: one collapsible section per result, labelled with
the sanitized display name. -/
def diffSection (perResultBudget : Nat) (r : DiffResult) : List Char :=
  "<details><summary>".toList ++ sanitizeDisplayName r.displayName ++
    "</summary>\n\n".toList ++ diffBody perResultBudget r ++
    "\n\n</details>\n".toList

/-- Modelled from the spec: the footer carrying the commit SHA and the
provenance links. -/
def commentFooter (commitSha : List Char) : List Char :=
  "\n<!-- nix-diff-action-footer sha=".toList ++ commitSha ++ " -->\n".toList ++
  "Generated by [nix-diff-action](https://github.com/natsukium/nix-diff-action) using [dix](https://github.com/faukah/dix)".toList

/-- Modelled from the spec: `formatAggregatedComment` of the missing
`github.ts` — the per-result budget is the global budget divided equally by
the number of results, regardless of individual diff lengths. -/
def formatAggregatedComment (results : List DiffResult) (commitSha : List Char) :
    List Char :=
  let perResultBudget := globalDiffBudget / results.length
  commentHeader results ++ (results.map (diffSection perResultBudget)).flatten ++
    commentFooter commitSha

/-! ## Concrete environments and inputs used by witnesses and counterexamples -/

/-- A nix exec environment whose forced realization exits non-zero with empty
stderr, while the path query succeeds. -/
def envBuildFails : List (List Char) → ExecResult := fun args =>
  if args = buildArgs "flake".toList then ⟨1, [], []⟩
  else ⟨0, "/nix/store/x".toList, []⟩

/-- A nix service where every resolution and diff succeeds and the diff text
is empty. -/
def nixEnvOk : NixServiceEnv where
  pathInfo := fun flakeRef _ => .ok ("/nix/store/p-".toList ++ flakeRef)
  dix := fun _ _ _ => .ok []

/-- A nix service where the base-rooted resolution (a `path:` flake ref)
fails and everything else succeeds. -/
def nixEnvBaseFails : NixServiceEnv where
  pathInfo := fun flakeRef _ =>
    if listStartsWith "path:".toList flakeRef then
      .error (.pathInfoErr flakeRef "boom".toList)
    else .ok "/nix/store/x".toList
  dix := fun _ _ _ => .ok []

/-- A git service that always yields the same checkout path. -/
def gitEnvOk : List Char → List Char → Except GitWorktreeErrorS (List Char) :=
  fun _ _ => .ok "/tmp/wt".toList

/-- Orchestrator environment with all services succeeding. -/
def envOk : OrchestratorEnv := ⟨gitEnvOk, fun _ _ => [], nixEnvOk⟩

/-- Orchestrator environment whose base-rooted resolution fails. -/
def envBaseFails : OrchestratorEnv := ⟨gitEnvOk, fun _ _ => [], nixEnvBaseFails⟩

/-- A run over one comparison target. -/
def optsOne : RunOptions where
  attributes := [⟨"host1".toList, "attrA".toList⟩]
  build := false
  directory := "/ws".toList
  baseRef := "main".toList
  baseSha := "abc".toList
  headSha := "def".toList
  cwd := "/ws".toList
  runId := "1".toList

/-- A run over two comparison targets. -/
def optsTwo : RunOptions :=
  { optsOne with
    attributes := [⟨"host1".toList, "attrA".toList⟩, ⟨"host2".toList, "attrB".toList⟩] }

/-- A single small result list for the aggregation witness. -/
def resultsW : List DiffResult :=
  [⟨"host1".toList, "attrA".toList, "abc".toList, "def".toList, "some diff".toList⟩]

/-! ## Statement abbreviations for claim conclusions -/

/-- Conclusion of the amended claim C3 for a given diff text: the detector
reports "no change" exactly when both path lines parse and their trimmed
captures coincide, and a parse failure of either line forces "changed". -/
def C3Conclusion (d : List Char) : Prop :=
  (hasDixChanges d = false ↔
    ∃ b p, scanLines "<<<".toList d = some b ∧ scanLines ">>>".toList d = some p ∧
      jsTrim b = jsTrim p) ∧
  ((scanLines "<<<".toList d = none ∨ scanLines ">>>".toList d = none) →
    hasDixChanges d = true)

/-- Conclusion of claim C6 for a successful run: one result per target, in
order, carrying the target's display name and attribute path and the run's
commit SHAs. -/
def C6Conclusion (opts : RunOptions) (rs : List DiffResult) : Prop :=
  rs.length = opts.attributes.length ∧
  List.Forall₂ (fun (r : DiffResult) (cfg : NixOutputConfig) =>
    r.displayName = cfg.displayName ∧ r.attributePath = cfg.attr ∧
    r.baseRef = opts.baseSha ∧ r.prRef = opts.headSha) rs opts.attributes

/-- The trace block of one comparison target: the base-rooted path query,
then the head-rooted path query, then the dix invocation rooted at the
checkout. -/
def targetBlock (baseFlakeRef prFlakeRef : List Char) (build : Bool)
    (worktreePath : List Char) (config : NixOutputConfig)
    (block : List NixEvent) : Prop :=
  ∃ basePath prPath,
    block = [.pathQuery (hashRef baseFlakeRef config.attr) build,
             .pathQuery (hashRef prFlakeRef config.attr) build,
             .dixCall basePath prPath worktreePath]

/-- Conclusion of the amended claim C7 for a successful run: the trace is the
two prefetches followed by per-target blocks in declaration order, each block
putting the base-rooted resolution strictly before the head-rooted one and
both before the diff invocation. -/
def C7Conclusion (env : OrchestratorEnv) (opts : RunOptions) : Prop :=
  ∃ wt blocks,
    env.createWorktree opts.baseRef opts.runId = .ok wt ∧
    (processDiffResults env opts).2 =
      .prefetch (baseFlakeRefFor (env.relative opts.cwd opts.directory) wt) ::
      .prefetch opts.directory :: blocks.flatten ∧
    List.Forall₂
      (targetBlock (baseFlakeRefFor (env.relative opts.cwd opts.directory) wt)
        opts.directory opts.build wt)
      opts.attributes blocks

/-- No two consecutive lines both trim to `CHANGED`. -/
def NoConsecChanged (xs : List (List Char)) : Prop :=
  List.Chain' (fun a b =>
    ¬(jsTrim a = "CHANGED".toList ∧ jsTrim b = "CHANGED".toList)) xs

/-- Every line trimming to `CHANGED` is immediately followed by a line that
does not trim to empty: on such a list `changedPass` is the identity. -/
def ChangedSeparated (xs : List (List Char)) : Prop :=
  List.Chain' (fun a b => jsTrim a = "CHANGED".toList → jsTrim b ≠ []) xs

/-! # Theorems -/

/-! ## Generic helper lemmas -/

theorem jsTrim_nil : jsTrim [] = [] := rfl

theorem ignoreExcept_ok {e α : Type} (x : Except e α) : ignoreExcept x = .ok () := rfl

/-- Each step of `scanLinesGo` strictly shortens its input, so the fuel
`cs.length + 1` supplied by `scanLines` is never exhausted. -/
theorem skipToNextLine_length {cs tl : List Char}
    (h : skipToNextLine cs = some tl) : tl.length < cs.length := by
  induction cs with
  | nil => simp [skipToNextLine] at h
  | cons c rest ih =>
    simp only [skipToNextLine] at h
    split at h
    · cases h; simp
    · have := ih h; simp; omega

/-! ## Claim C5: removeWorktree never throws -/

/-- Claim C5: for every probe outcome and removal outcome, `removeWorktree`
succeeds (its error type is `Empty`); a failed existence probe defaults to
"does not exist"; and the removal is attempted exactly when the probe
positively reported the checkout as existing, so a missing checkout is a
no-op and any removal failure is swallowed. -/
theorem c5_removeWorktree_total :
    ∀ (probe : Option Bool) (rem : GitExecOutcome),
      (removeWorktreeRun probe rem).1 = .ok () ∧
      worktreeExistsRun none = false ∧
      ((removeWorktreeRun probe rem).2 = true ↔ probe = some true) := by
  intro probe rem
  refine ⟨?_, rfl, ?_⟩
  · unfold removeWorktreeRun
    split <;> rfl
  · unfold removeWorktreeRun
    cases probe with
    | none => simp [worktreeExistsRun]
    | some b => cases b <;> simp [worktreeExistsRun]

/-! ## Claim C8: branch-name sanitization and path determinism -/

/-- Claim C8: every character of `sanitizeBranchName baseRef` lies in
`[A-Za-z0-9-]`, and the composed checkout path is a deterministic function of
the `(baseRef, runId)` pair (for a fixed resolved temp root). -/
theorem c8_sanitize_and_deterministic_path :
    (∀ ref : List Char, ∀ c ∈ sanitizeBranchName ref, isAlnumDash c = true) ∧
    (∀ tmpReal r1 i1 r2 i2 : List Char, r1 = r2 → i1 = i2 →
      worktreePathFor tmpReal r1 i1 = worktreePathFor tmpReal r2 i2) := by
  constructor
  · intro ref c hc
    simp only [sanitizeBranchName, List.mem_map] at hc
    obtain ⟨a, _, ha⟩ := hc
    by_cases h : isAlnumDash a = true
    · rw [if_pos h] at ha; rw [← ha]; exact h
    · rw [if_neg h] at ha; rw [← ha]; decide
  · intro tmpReal r1 i1 r2 i2 h1 h2
    rw [h1, h2]

/-- Witness for C8 at a concrete branch name. -/
theorem c8_witness :
    'f' ∈ sanitizeBranchName "feature/x".toList ∧ isAlnumDash 'f' = true :=
  ⟨by decide,
   c8_sanitize_and_deterministic_path.1 "feature/x".toList 'f' (by decide)⟩

/-! ## Claim C3: hasDixChanges -/

/-- Counterexample to C3 as stated: on the empty diff neither path line
parses, yet `hasDixChanges` returns `false` (the guard for empty or
whitespace-only diffs), not the `true` the claim requires for parse
failures. -/
theorem c3_counterexample :
    hasDixChanges [] = false ∧ scanLines "<<<".toList [] = none :=
  ⟨rfl, rfl⟩

/-- Claim C3 (amended): for every diff text that does not trim to empty,
`hasDixChanges diff` is `false` iff the leading `<<<` and `>>>` path lines
both parse and their captured paths are equal after trimming, and whenever
either line fails to parse the result is `true`; diffs trimming to empty
return `false` unconditionally. -/
theorem c3_hasDixChanges_amended (d : List Char) (h : jsTrim d ≠ []) :
    C3Conclusion d := by
  have hguard : ¬((jsTrim d).isEmpty = true) := by
    simpa [List.isEmpty_iff] using h
  unfold C3Conclusion hasDixChanges
  rw [if_neg hguard]
  cases h1 : scanLines "<<<".toList d <;> cases h2 : scanLines ">>>".toList d <;>
    simp [h1, h2, decide_eq_false_iff_not]

/-- Witness for the amended C3 at a concrete two-line diff with equal paths. -/
theorem c3_witness :
    jsTrim ("<<< /a\n>>> /a".toList) ≠ [] ∧ C3Conclusion ("<<< /a\n>>> /a".toList) :=
  ⟨by decide, c3_hasDixChanges_amended ("<<< /a\n>>> /a".toList) (by decide)⟩

/-! ## Claim C4: getNixPath error handling -/

/-- Counterexample to C4 as stated: when the forced realization fails with
empty (trimmed) stderr, the `BuildError` message is the fallback
`"unknown error"`, not the captured stderr. -/
theorem c4_counterexample :
    getNixPath envBuildFails "flake".toList true =
      .error (.buildErr "flake".toList "unknown error".toList) ∧
    (execNixR envBuildFails (buildArgs "flake".toList)).stderr = [] ∧
    "unknown error".toList ≠ [] :=
  ⟨rfl, rfl, by decide⟩

/-- Claim C4 (amended): when `build` is true and realization exits non-zero,
`getNixPath` fails with a `BuildError` carrying the reference and the
captured stderr as its message — or `"unknown error"` when that stderr is
empty; for every call whose realization step did not already fail, a path
query that exits non-zero or returns empty output fails with a
`PathInfoError` (empty stdout is always an error), and otherwise the trimmed
stdout of the build-mode-selected query is returned. -/
theorem c4_getNixPath_amended (env : List (List Char) → ExecResult)
    (flakeRef : List Char) :
    ((execNixR env (buildArgs flakeRef)).exitCode ≠ 0 →
      getNixPath env flakeRef true =
        .error (.buildErr flakeRef
          (orUnknownError (execNixR env (buildArgs flakeRef)).stderr))) ∧
    (∀ build : Bool,
      (build = true → (execNixR env (buildArgs flakeRef)).exitCode = 0) →
      ((execNixR env (pathInfoArgs flakeRef build)).exitCode ≠ 0 ∨
          (execNixR env (pathInfoArgs flakeRef build)).stdout = [] →
        ∃ msg, getNixPath env flakeRef build = .error (.pathInfoErr flakeRef msg)) ∧
      ((execNixR env (pathInfoArgs flakeRef build)).exitCode = 0 ∧
          (execNixR env (pathInfoArgs flakeRef build)).stdout ≠ [] →
        getNixPath env flakeRef build =
          .ok (execNixR env (pathInfoArgs flakeRef build)).stdout)) := by
  constructor
  · intro hb
    unfold getNixPath
    rw [if_pos ⟨rfl, hb⟩]
  · intro build hbuild
    have hnot : ¬(build = true ∧ (execNixR env (buildArgs flakeRef)).exitCode ≠ 0) := by
      rintro ⟨h1, h2⟩; exact h2 (hbuild h1)
    constructor
    · intro hq
      unfold getNixPath
      rw [if_neg hnot]
      rcases hq with hq | hq
      · rw [if_pos hq]
        exact ⟨_, rfl⟩
      · by_cases he : (execNixR env (pathInfoArgs flakeRef build)).exitCode ≠ 0
        · rw [if_pos he]; exact ⟨_, rfl⟩
        · rw [if_neg he, if_pos (by simpa [List.isEmpty_iff] using hq)]
          exact ⟨_, rfl⟩
    · rintro ⟨h1, h2⟩
      unfold getNixPath
      rw [if_neg hnot, if_neg (by simp [h1]), if_neg (by simpa [List.isEmpty_iff] using h2)]

/-- Witness for the amended C4: a concrete derivation-path query succeeds and
returns the query's stdout. -/
theorem c4_witness :
    ((execNixR envBuildFails (pathInfoArgs "flake".toList false)).exitCode = 0 ∧
      (execNixR envBuildFails (pathInfoArgs "flake".toList false)).stdout ≠ []) ∧
    getNixPath envBuildFails "flake".toList false =
      .ok (execNixR envBuildFails (pathInfoArgs "flake".toList false)).stdout :=
  ⟨⟨by decide, by decide⟩,
   ((c4_getNixPath_amended envBuildFails "flake".toList).2 false
     (by intro h; cases h)).2 ⟨by decide, by decide⟩⟩

/-! ## Orchestrator helper lemmas -/

/-- Any dix invocation recorded by `processNixOutput` uses the worktree path
as its resolution-context argument. -/
theorem processNixOutput_dixCall_ctx {nix : NixServiceEnv} {cfg : NixOutputConfig}
    {bf pf bs hs : List Char} {build : Bool} {wt b p ctx : List Char}
    (h : NixEvent.dixCall b p ctx ∈
      (processNixOutput nix cfg bf pf bs hs build wt).2) : ctx = wt := by
  cases hb : nix.pathInfo (hashRef bf cfg.attr) build with
  | error e => simp [processNixOutput, hb] at h
  | ok basePath =>
    cases hp : nix.pathInfo (hashRef pf cfg.attr) build with
    | error e => simp [processNixOutput, hb, hp] at h
    | ok prPath =>
      cases hd : nix.dix basePath prPath wt with
      | error e =>
        simp [processNixOutput, hb, hp, hd] at h
        exact h.2.2
      | ok diff =>
        simp [processNixOutput, hb, hp, hd] at h
        exact h.2.2

/-- A successful `processNixOutput` yields the result record with the
target's identity fields and the commit SHAs, and a trace of exactly the two
path queries followed by the dix call rooted at the worktree. -/
theorem processNixOutput_ok_spec {nix : NixServiceEnv} {cfg : NixOutputConfig}
    {bf pf bs hs : List Char} {build : Bool} {wt : List Char} {d : DiffResult}
    (h : (processNixOutput nix cfg bf pf bs hs build wt).1 = .ok d) :
    (d.displayName = cfg.displayName ∧ d.attributePath = cfg.attr ∧
      d.baseRef = bs ∧ d.prRef = hs) ∧
    ∃ basePath prPath,
      (processNixOutput nix cfg bf pf bs hs build wt).2 =
        [.pathQuery (hashRef bf cfg.attr) build,
         .pathQuery (hashRef pf cfg.attr) build,
         .dixCall basePath prPath wt] := by
  cases hb : nix.pathInfo (hashRef bf cfg.attr) build with
  | error e => simp [processNixOutput, hb] at h
  | ok basePath =>
    cases hp : nix.pathInfo (hashRef pf cfg.attr) build with
    | error e => simp [processNixOutput, hb, hp] at h
    | ok prPath =>
      cases hd : nix.dix basePath prPath wt with
      | error e => simp [processNixOutput, hb, hp, hd] at h
      | ok diff =>
        simp only [processNixOutput, hb, hp, hd] at h ⊢
        cases h
        exact ⟨⟨rfl, rfl, rfl, rfl⟩, basePath, prPath, rfl⟩

/-- Any dix invocation recorded by `runTargets` uses the worktree path as its
resolution-context argument. -/
theorem runTargets_dixCall_ctx {nix : NixServiceEnv} {bf pf bs hs : List Char}
    {build : Bool} {wt : List Char} {attrs : List NixOutputConfig}
    {b p ctx : List Char}
    (h : NixEvent.dixCall b p ctx ∈
      (runTargets nix bf pf bs hs build wt attrs).2) : ctx = wt := by
  induction attrs with
  | nil => simp [runTargets] at h
  | cons cfg rest ih =>
    simp only [runTargets] at h
    cases hr : (processNixOutput nix cfg bf pf bs hs build wt).1 with
    | error e =>
      rw [hr] at h
      exact processNixOutput_dixCall_ctx h
    | ok d =>
      rw [hr] at h
      rcases List.mem_append.1 h with h' | h'
      · exact processNixOutput_dixCall_ctx h'
      · exact ih h'

/-- A successful `runTargets` produces one result per target, in order, with
the identity fields of the corresponding target. -/
theorem runTargets_ok_results {nix : NixServiceEnv} {bf pf bs hs : List Char}
    {build : Bool} {wt : List Char} {attrs : List NixOutputConfig}
    {rs : List DiffResult}
    (h : (runTargets nix bf pf bs hs build wt attrs).1 = .ok rs) :
    List.Forall₂ (fun (r : DiffResult) (cfg : NixOutputConfig) =>
      r.displayName = cfg.displayName ∧ r.attributePath = cfg.attr ∧
      r.baseRef = bs ∧ r.prRef = hs) rs attrs := by
  induction attrs generalizing rs with
  | nil =>
    simp only [runTargets] at h
    cases h
    exact .nil
  | cons cfg rest ih =>
    simp only [runTargets] at h
    cases hr : (processNixOutput nix cfg bf pf bs hs build wt).1 with
    | error e => rw [hr] at h; cases h
    | ok d =>
      rw [hr] at h
      cases hrr : (runTargets nix bf pf bs hs build wt rest).1 with
      | error e2 => rw [hrr] at h; cases h
      | ok rs' =>
        rw [hrr] at h
        cases h
        exact .cons (processNixOutput_ok_spec hr).1 (ih hrr)

/-- A successful `runTargets` trace is the concatenation of one
`targetBlock` per target, in declaration order. -/
theorem runTargets_ok_blocks {nix : NixServiceEnv} {bf pf bs hs : List Char}
    {build : Bool} {wt : List Char} {attrs : List NixOutputConfig}
    {rs : List DiffResult}
    (h : (runTargets nix bf pf bs hs build wt attrs).1 = .ok rs) :
    ∃ blocks, (runTargets nix bf pf bs hs build wt attrs).2 = blocks.flatten ∧
      List.Forall₂ (targetBlock bf pf build wt) attrs blocks := by
  induction attrs generalizing rs with
  | nil => exact ⟨[], by simp [runTargets], .nil⟩
  | cons cfg rest ih =>
    simp only [runTargets] at h ⊢
    cases hr : (processNixOutput nix cfg bf pf bs hs build wt).1 with
    | error e => rw [hr] at h; cases h
    | ok d =>
      rw [hr] at h
      cases hrr : (runTargets nix bf pf bs hs build wt rest).1 with
      | error e2 => rw [hrr] at h; cases h
      | ok rs' =>
        rw [hrr] at h
        obtain ⟨blocks, hbl, hfa⟩ := ih hrr
        obtain ⟨-, basePath, prPath, htr⟩ := processNixOutput_ok_spec hr
        refine ⟨(processNixOutput nix cfg bf pf bs hs build wt).2 :: blocks, ?_, ?_⟩
        · simp [List.flatten_cons, hbl]
        · exact .cons ⟨basePath, prPath, htr⟩ hfa

/-! ## Claim C1: the dix resolution context is the base checkout -/

/-- Claim C1: in every pipeline run, every structural-diff invocation passes,
as its resolution-context (third, `inputsFromPath`) argument, exactly the
checkout path acquired for the base ref — so whenever that checkout differs
from the caller's live head directory, the context is never the head
directory. -/
theorem c1_dix_resolution_context (env : OrchestratorEnv) (opts : RunOptions)
    (wt : List Char)
    (hwt : env.createWorktree opts.baseRef opts.runId = .ok wt)
    (b p ctx : List Char)
    (hmem : NixEvent.dixCall b p ctx ∈ (processDiffResults env opts).2) :
    ctx = wt ∧ (wt ≠ opts.directory → ctx ≠ opts.directory) := by
  simp only [processDiffResults, hwt, List.mem_cons] at hmem
  rcases hmem with h | h | h
  · cases h
  · cases h
  · have hctx := runTargets_dixCall_ctx h
    exact ⟨hctx, fun hne => hctx ▸ hne⟩

/-- Witness for C1: in a concrete successful run, the recorded dix call has
the checkout path as its context. -/
theorem c1_witness :
    envOk.createWorktree optsOne.baseRef optsOne.runId = .ok "/tmp/wt".toList ∧
    NixEvent.dixCall ("/nix/store/p-path:/tmp/wt#attrA".toList)
        ("/nix/store/p-/ws#attrA".toList) "/tmp/wt".toList ∈
      (processDiffResults envOk optsOne).2 ∧
    ("/tmp/wt".toList = "/tmp/wt".toList ∧
      ("/tmp/wt".toList ≠ optsOne.directory →
        "/tmp/wt".toList ≠ optsOne.directory)) :=
  ⟨rfl, by decide,
   c1_dix_resolution_context envOk optsOne "/tmp/wt".toList rfl
     ("/nix/store/p-path:/tmp/wt#attrA".toList) ("/nix/store/p-/ws#attrA".toList)
     "/tmp/wt".toList (by decide)⟩

/-! ## Claim C6: result list shape -/

/-- Claim C6: a successful run returns exactly one `DiffResult` per requested
target, in declaration order, the i-th result carrying the i-th target's
display name and attribute path, and every result's `baseRef`/`prRef` holding
the commit SHAs supplied to the run. -/
theorem c6_result_list_shape (env : OrchestratorEnv) (opts : RunOptions)
    (rs : List DiffResult)
    (h : (processDiffResults env opts).1 = .ok rs) : C6Conclusion opts rs := by
  unfold C6Conclusion
  cases hwt : env.createWorktree opts.baseRef opts.runId with
  | error e => simp [processDiffResults, hwt] at h
  | ok wt =>
    simp only [processDiffResults, hwt] at h
    cases hrt : (runTargets env.nix
        (baseFlakeRefFor (env.relative opts.cwd opts.directory) wt) opts.directory
        opts.baseSha opts.headSha opts.build wt opts.attributes).1 with
    | error e => rw [hrt] at h; cases h
    | ok rs' =>
      rw [hrt] at h
      cases h
      have hfa := runTargets_ok_results hrt
      exact ⟨hfa.length_eq, hfa⟩

/-- Witness for C6: a concrete two-target run (with empty diffs, which are
valid results) returns two records in order with the supplied SHAs. -/
theorem c6_witness :
    (processDiffResults envOk optsTwo).1 =
      .ok [⟨"host1".toList, "attrA".toList, "abc".toList, "def".toList, []⟩,
           ⟨"host2".toList, "attrB".toList, "abc".toList, "def".toList, []⟩] ∧
    C6Conclusion optsTwo
      [⟨"host1".toList, "attrA".toList, "abc".toList, "def".toList, []⟩,
       ⟨"host2".toList, "attrB".toList, "abc".toList, "def".toList, []⟩] :=
  ⟨rfl, c6_result_list_shape envOk optsTwo _ rfl⟩

/-! ## Claim C7: intra-target concurrency -/

/-- Counterexample to C7 as stated: the two per-target resolutions are not
concurrent — `Effect.all` is used without a `concurrency` option (the code
comments "Run sequentially to avoid Nix SQLite database lock contention"), so
when the base-rooted resolution fails the head-rooted resolution is never
issued at all, which is impossible for two resolutions that both execute
unordered. -/
theorem c7_counterexample :
    (processDiffResults envBaseFails optsOne).2 =
      [.prefetch "path:/tmp/wt".toList, .prefetch "/ws".toList,
       .pathQuery "path:/tmp/wt#attrA".toList false] ∧
    NixEvent.pathQuery "/ws#attrA".toList false ∉
      (processDiffResults envBaseFails optsOne).2 := by
  constructor
  · rfl
  · decide

/-- Claim C7 (amended): within one comparison target the base-rooted
resolution is issued and completed strictly before the head-rooted one, and
both complete before the diff invocation for that target; cross-target
processing remains strictly sequential in declaration order. -/
theorem c7_sequential_per_target (env : OrchestratorEnv) (opts : RunOptions)
    (rs : List DiffResult)
    (h : (processDiffResults env opts).1 = .ok rs) : C7Conclusion env opts := by
  unfold C7Conclusion
  cases hwt : env.createWorktree opts.baseRef opts.runId with
  | error e => simp [processDiffResults, hwt] at h
  | ok wt =>
    simp only [processDiffResults, hwt] at h ⊢
    cases hrt : (runTargets env.nix
        (baseFlakeRefFor (env.relative opts.cwd opts.directory) wt) opts.directory
        opts.baseSha opts.headSha opts.build wt opts.attributes).1 with
    | error e => rw [hrt] at h; cases h
    | ok rs' =>
      obtain ⟨blocks, hbl, hfa⟩ := runTargets_ok_blocks hrt
      exact ⟨wt, blocks, rfl, by rw [hbl], hfa⟩

/-- Witness for the amended C7 at a concrete successful run. -/
theorem c7_witness :
    (processDiffResults envOk optsOne).1 =
      .ok [⟨"host1".toList, "attrA".toList, "abc".toList, "def".toList, []⟩] ∧
    C7Conclusion envOk optsOne :=
  ⟨rfl, c7_sequential_per_target envOk optsOne _ rfl⟩

/-! ## Line splitting and joining lemmas -/

theorem splitNL_ne_nil (cs : List Char) : splitNL cs ≠ [] := by
  induction cs with
  | nil => simp [splitNL]
  | cons c rest ih =>
    simp only [splitNL]
    split
    · simp
    · cases h : splitNL rest with
      | nil => simp
      | cons l ls => simp

theorem mem_splitNL {cs l : List Char} (hl : l ∈ splitNL cs)
    {c : Char} (hc : c ∈ l) : c ∈ cs ∧ c ≠ '\n' := by
  induction cs generalizing l with
  | nil =>
    simp only [splitNL, List.mem_singleton] at hl
    subst hl
    simp at hc
  | cons a rest ih =>
    simp only [splitNL] at hl
    by_cases ha : a = '\n'
    · rw [if_pos ha] at hl
      rcases List.mem_cons.1 hl with rfl | hl'
      · simp at hc
      · have := ih hl' hc
        exact ⟨List.mem_cons_of_mem _ this.1, this.2⟩
    · rw [if_neg ha] at hl
      cases hsp : splitNL rest with
      | nil => exact absurd hsp (splitNL_ne_nil rest)
      | cons l0 ls =>
        rw [hsp] at hl
        rcases List.mem_cons.1 hl with rfl | hl'
        · rcases List.mem_cons.1 hc with rfl | hc'
          · exact ⟨List.mem_cons_self _ _, ha⟩
          · have := ih (l := l0) (by rw [hsp]; exact List.mem_cons_self l0 ls) hc'
            exact ⟨List.mem_cons_of_mem _ this.1, this.2⟩
        · have := ih (l := l) (by rw [hsp]; exact List.mem_cons_of_mem _ hl') hc
          exact ⟨List.mem_cons_of_mem _ this.1, this.2⟩

theorem splitNL_no_newline {l : List Char} (h : '\n' ∉ l) : splitNL l = [l] := by
  induction l with
  | nil => rfl
  | cons c rest ih =>
    have hc : c ≠ '\n' := fun hh => h (hh ▸ List.mem_cons_self _ _)
    have hr : '\n' ∉ rest := fun hh => h (List.mem_cons_of_mem _ hh)
    simp only [splitNL]
    rw [if_neg hc, ih hr]

theorem splitNL_append_newline {l rest : List Char} (h : '\n' ∉ l) :
    splitNL (l ++ '\n' :: rest) = l :: splitNL rest := by
  induction l with
  | nil => simp [splitNL]
  | cons c l' ih =>
    have hc : c ≠ '\n' := fun hh => h (hh ▸ List.mem_cons_self _ _)
    have hl' : '\n' ∉ l' := fun hh => h (List.mem_cons_of_mem _ hh)
    simp only [List.cons_append, splitNL, List.append_eq]
    rw [if_neg hc, ih hl']

theorem splitNL_joinNL {ls : List (List Char)} (hne : ls ≠ [])
    (h : ∀ l ∈ ls, '\n' ∉ l) : splitNL (joinNL ls) = ls := by
  induction ls with
  | nil => exact absurd rfl hne
  | cons l ls' ih =>
    cases ls' with
    | nil => simpa [joinNL] using splitNL_no_newline (h l (List.mem_cons_self _ _))
    | cons l2 ls'' =>
      have hj : joinNL (l :: l2 :: ls'') = l ++ '\n' :: joinNL (l2 :: ls'') := rfl
      rw [hj, splitNL_append_newline (h l (List.mem_cons_self _ _)),
        ih (by simp) (fun x hx => h x (List.mem_cons_of_mem _ hx))]

theorem crlfToLf_of_no_cr {cs : List Char} (h : '\r' ∉ cs) : crlfToLf cs = cs := by
  induction cs with
  | nil => rfl
  | cons c rest ih =>
    cases rest with
    | nil => rfl
    | cons c2 rest2 =>
      have hc : c ≠ '\r' := fun hh => h (hh ▸ List.mem_cons_self _ _)
      have hr : '\r' ∉ (c2 :: rest2) := fun hh => h (List.mem_cons_of_mem _ hh)
      simp only [crlfToLf]
      rw [if_neg (by rintro ⟨h1, _⟩; exact hc h1), ih hr]

theorem mem_joinNL {c : Char} {ls : List (List Char)} (h : c ∈ joinNL ls) :
    c = '\n' ∨ ∃ l ∈ ls, c ∈ l := by
  induction ls with
  | nil => simp [joinNL] at h
  | cons l ls' ih =>
    cases ls' with
    | nil => exact Or.inr ⟨l, List.mem_cons_self _ _, by simpa [joinNL] using h⟩
    | cons l2 ls'' =>
      have hj : joinNL (l :: l2 :: ls'') = l ++ '\n' :: joinNL (l2 :: ls'') := rfl
      rw [hj] at h
      rcases List.mem_append.1 h with h' | h'
      · exact Or.inr ⟨l, List.mem_cons_self _ _, h'⟩
      · rcases List.mem_cons.1 h' with rfl | h''
        · exact Or.inl rfl
        · rcases ih h'' with h3 | ⟨l3, hl3, hc3⟩
          · exact Or.inl h3
          · exact Or.inr ⟨l3, List.mem_cons_of_mem _ hl3, hc3⟩

/-! ## changedPass lemmas -/

theorem changedPass_sublist (xs : List (List Char)) : (changedPass xs).Sublist xs := by
  induction xs with
  | nil => simp [changedPass]
  | cons x tail ih =>
    cases tail with
    | nil => simp [changedPass]
    | cons y rest =>
      simp only [changedPass]
      split
      · exact ih.cons x
      · exact ih.cons₂ x

theorem changedPass_cons_of_not_changed {y : List Char} {rest : List (List Char)}
    (h : jsTrim y ≠ "CHANGED".toList) :
    changedPass (y :: rest) = y :: changedPass rest := by
  cases rest with
  | nil => rfl
  | cons z rest' =>
    simp only [changedPass]
    rw [if_neg (by rintro ⟨h1, _⟩; exact h h1)]

theorem changedPass_eq_of_separated {xs : List (List Char)}
    (h : ChangedSeparated xs) : changedPass xs = xs := by
  induction xs with
  | nil => rfl
  | cons x tail ih =>
    cases tail with
    | nil => rfl
    | cons y rest =>
      unfold ChangedSeparated at h
      rw [List.chain'_cons] at h
      simp only [changedPass]
      rw [if_neg (by rintro ⟨h1, h2⟩; exact h.1 h1 h2), ih h.2]

theorem changedPass_separated {xs : List (List Char)}
    (h : NoConsecChanged xs) : ChangedSeparated (changedPass xs) := by
  induction xs with
  | nil => exact List.chain'_nil
  | cons x tail ih =>
    cases tail with
    | nil => simp only [changedPass]; exact List.chain'_singleton x
    | cons y rest =>
      unfold NoConsecChanged at h
      rw [List.chain'_cons] at h
      simp only [changedPass]
      by_cases hskip : jsTrim x = "CHANGED".toList ∧ jsTrim y = []
      · rw [if_pos hskip]
        exact ih h.2
      · rw [if_neg hskip]
        have htail := ih h.2
        unfold ChangedSeparated
        rw [List.chain'_cons']
        refine ⟨?_, htail⟩
        intro b hb hxCH
        by_cases hy : jsTrim y = "CHANGED".toList
        · exact absurd ⟨hxCH, hy⟩ h.1
        · rw [changedPass_cons_of_not_changed hy] at hb
          simp only [List.head?_cons, Option.mem_def, Option.some.injEq] at hb
          subst hb
          exact fun hy0 => hskip ⟨hxCH, hy0⟩

/-! ## Claim C9: idempotence of the minor-update filter -/

/-- Counterexample to C9 as stated: on `"CHANGED\nCHANGED\n"` the first pass
keeps the first `CHANGED` (its immediate successor is the second `CHANGED`,
not a blank) and drops the second, producing `"CHANGED\n"`; the second pass
then sees the kept `CHANGED` followed by a blank line and drops it too, so the
filter is not idempotent. -/
theorem c9_counterexample :
    filterNixpkgsMinorUpdates (filterNixpkgsMinorUpdates "CHANGED\nCHANGED\n".toList) ≠
      filterNixpkgsMinorUpdates "CHANGED\nCHANGED\n".toList := by decide

/-- Claim C9 (amended): the filter is idempotent on every diff that contains
no carriage return and in which, after removing the minor-update lines, no
two consecutive lines both trim to `CHANGED` (a CR before a line boundary is
re-normalized by the second pass, and consecutive `CHANGED` lines can leave a
`CHANGED`-then-blank pair that only the second pass removes). -/
theorem c9_filter_idempotent_amended (d : List Char) (hcr : '\r' ∉ d)
    (hnc : NoConsecChanged
      ((splitLinesJS d).filter (fun l => !isNixpkgsMinorUpdateLine l))) :
    filterNixpkgsMinorUpdates (filterNixpkgsMinorUpdates d) =
      filterNixpkgsMinorUpdates d := by
  by_cases hg : (jsTrim d).isEmpty
  · have hfd : filterNixpkgsMinorUpdates d = d := by
      unfold filterNixpkgsMinorUpdates
      rw [if_pos hg]
    rw [hfd]
    exact hfd
  · have hfd : filterNixpkgsMinorUpdates d =
        joinNL (changedPass
          ((splitLinesJS d).filter (fun l => !isNixpkgsMinorUpdateLine l))) := by
      unfold filterNixpkgsMinorUpdates
      rw [if_neg hg]
    by_cases hg2 : (jsTrim (filterNixpkgsMinorUpdates d)).isEmpty
    · generalize hE : filterNixpkgsMinorUpdates d = E at hg2 ⊢
      unfold filterNixpkgsMinorUpdates
      rw [if_pos hg2]
    · set FL := (splitLinesJS d).filter (fun l => !isNixpkgsMinorUpdateLine l)
        with hFLdef
      set out := changedPass FL with houtdef
      have hout_ne : out ≠ [] := by
        intro h0
        apply hg2
        rw [hfd, h0]
        rfl
      have hsub : out.Sublist (splitLinesJS d) :=
        (changedPass_sublist FL).trans (List.filter_sublist _)
      have hnl : ∀ l ∈ out, '\n' ∉ l := by
        intro l hl hcNL
        have hl' : l ∈ splitNL (crlfToLf d) := hsub.subset hl
        exact (mem_splitNL hl' hcNL).2 rfl
      have hncr : ∀ l ∈ out, '\r' ∉ l := by
        intro l hl hcCR
        have hl' : l ∈ splitNL (crlfToLf d) := hsub.subset hl
        have := (mem_splitNL hl' hcCR).1
        rw [crlfToLf_of_no_cr hcr] at this
        exact hcr this
      have hcrj : '\r' ∉ joinNL out := by
        intro hmem
        rcases mem_joinNL hmem with h' | ⟨l, hl, hc'⟩
        · exact absurd h' (by decide)
        · exact hncr l hl hc'
      have hsplit : splitLinesJS (joinNL out) = out := by
        unfold splitLinesJS
        rw [crlfToLf_of_no_cr hcrj, splitNL_joinNL hout_ne hnl]
      have hfil : (splitLinesJS (joinNL out)).filter
          (fun l => !isNixpkgsMinorUpdateLine l) = out := by
        rw [hsplit]
        apply List.filter_eq_self.2
        intro l hl
        have hlFL : l ∈ FL := (changedPass_sublist FL).subset hl
        exact (List.mem_filter.1 hlFL).2
      have hsep : ChangedSeparated out := changedPass_separated hnc
      rw [hfd] at hg2 ⊢
      unfold filterNixpkgsMinorUpdates
      rw [if_neg hg2, hfil, changedPass_eq_of_separated hsep]

/-- Witness for the amended C9 at a concrete CR-free diff whose `CHANGED`
header is followed by a blank line. -/
theorem c9_witness :
    ('\r' ∉ "a\nCHANGED\n\nb".toList) ∧
    NoConsecChanged ((splitLinesJS "a\nCHANGED\n\nb".toList).filter
      (fun l => !isNixpkgsMinorUpdateLine l)) ∧
    filterNixpkgsMinorUpdates (filterNixpkgsMinorUpdates "a\nCHANGED\n\nb".toList) =
      filterNixpkgsMinorUpdates "a\nCHANGED\n\nb".toList := by
  have hnc : NoConsecChanged ((splitLinesJS "a\nCHANGED\n\nb".toList).filter
      (fun l => !isNixpkgsMinorUpdateLine l)) := by
    unfold NoConsecChanged
    rw [show (splitLinesJS "a\nCHANGED\n\nb".toList).filter
        (fun l => !isNixpkgsMinorUpdateLine l) =
        ["a".toList, "CHANGED".toList, [], "b".toList] from by decide]
    exact List.Chain'.cons (by decide) (List.Chain'.cons (by decide)
      (List.Chain'.cons (by decide) (List.chain'_singleton _)))
  exact ⟨by decide, hnc,
    c9_filter_idempotent_amended "a\nCHANGED\n\nb".toList (by decide) hnc⟩

/-! ## Claim C10: the filter only deletes whole lines -/

/-- Counterexample to C10 as stated: `"\r\n"` trims to empty so the filter
returns it verbatim; its own lines split on `'\n'` are `["\r", ""]`, which is
not a subsequence of the input lines `["", ""]` obtained by splitting on
`/\r?\n/`. -/
theorem c10_counterexample :
    ¬ (splitNL (filterNixpkgsMinorUpdates "\r\n".toList)).Sublist
        (splitLinesJS "\r\n".toList) := by decide

/-- Claim C10 (amended): for every input that does not trim to empty and on
which the filter's output is nonempty, the lines of the output (split on
`'\n'`) are a subsequence of the lines of the input (split on `/\r?\n/`), in
order and with each retained line unmodified.  (An input trimming to empty is
returned verbatim, and an output that is empty splits to the single empty
line, which need not occur among the input's lines.) -/
theorem c10_filter_deletes_whole_lines (d : List Char)
    (h1 : jsTrim d ≠ []) (h2 : filterNixpkgsMinorUpdates d ≠ []) :
    (splitNL (filterNixpkgsMinorUpdates d)).Sublist (splitLinesJS d) := by
  have hg : ¬((jsTrim d).isEmpty = true) := by
    simpa [List.isEmpty_iff] using h1
  have hfd : filterNixpkgsMinorUpdates d =
      joinNL (changedPass
        ((splitLinesJS d).filter (fun l => !isNixpkgsMinorUpdateLine l))) := by
    unfold filterNixpkgsMinorUpdates
    rw [if_neg hg]
  set FL := (splitLinesJS d).filter (fun l => !isNixpkgsMinorUpdateLine l)
    with hFLdef
  set out := changedPass FL with houtdef
  have hsub : out.Sublist (splitLinesJS d) :=
    (changedPass_sublist FL).trans (List.filter_sublist _)
  have hout_ne : out ≠ [] := by
    intro h0
    apply h2
    rw [hfd, h0]
    rfl
  have hnl : ∀ l ∈ out, '\n' ∉ l := by
    intro l hl hcNL
    have hl' : l ∈ splitNL (crlfToLf d) := hsub.subset hl
    exact (mem_splitNL hl' hcNL).2 rfl
  rw [hfd, splitNL_joinNL hout_ne hnl]
  exact hsub

/-- Witness for the amended C10 at a concrete diff. -/
theorem c10_witness :
    jsTrim "a\nCHANGED\n\nb".toList ≠ [] ∧
    filterNixpkgsMinorUpdates "a\nCHANGED\n\nb".toList ≠ [] ∧
    (splitNL (filterNixpkgsMinorUpdates "a\nCHANGED\n\nb".toList)).Sublist
      (splitLinesJS "a\nCHANGED\n\nb".toList) :=
  ⟨by decide, by decide,
   c10_filter_deletes_whole_lines "a\nCHANGED\n\nb".toList (by decide) (by decide)⟩

/-! ## Claim C2: fair truncation and the report ceiling -/

theorem natDecimal_length_le {n k : Nat} (hk : 1 ≤ k) (h : n < 10 ^ k) :
    (natDecimal n).length ≤ k := by
  unfold natDecimal
  split
  · simpa using hk
  · rename_i hn
    rw [List.length_map, List.length_reverse,
      Nat.digits_len 10 n (by norm_num) hn]
    have := Nat.log_lt_of_lt_pow hn h
    omega

theorem truncationMarker_length_le {n : Nat} (h : n < 10 ^ 10) :
    (truncationMarker n).length ≤ 41 := by
  unfold truncationMarker
  rw [List.length_append, List.length_append]
  have h1 : ("\n\n... (truncated, ".toList).length = 18 := by decide
  have h2 : (" chars total)".toList).length = 13 := by decide
  have h3 := natDecimal_length_le (by norm_num) h
  omega

theorem truncateDiff_text_length_le (pb : Nat) {diff : List Char}
    (h : diff.length < 10 ^ 10) :
    ((truncateDiff diff pb).text).length ≤ pb + 41 := by
  by_cases hlt : pb < diff.length
  · have he : truncateDiff diff pb =
        ⟨diff.take pb ++ truncationMarker diff.length, true⟩ := by
      unfold truncateDiff
      rw [if_pos hlt]
    rw [he]
    show (diff.take pb ++ truncationMarker diff.length).length ≤ pb + 41
    rw [List.length_append, List.length_take]
    have := truncationMarker_length_le h
    omega
  · have he : truncateDiff diff pb = ⟨diff, false⟩ := by
      unfold truncateDiff
      rw [if_neg hlt]
    rw [he]
    show diff.length ≤ pb + 41
    omega

theorem sanitizeDisplayName_length_le (name : List Char) :
    (sanitizeDisplayName name).length ≤ name.length :=
  List.length_filter_le _ _

theorem diffBody_length_le (pb : Nat) {r : DiffResult}
    (h : r.diff.length < 10 ^ 10) : (diffBody pb r).length ≤ pb + 41 := by
  unfold diffBody
  split
  · have h20 : ("No differences found".toList).length = 20 := by decide
    omega
  · exact truncateDiff_text_length_le pb h

theorem diffSection_length_le (pb : Nat) {r : DiffResult}
    (hd : r.displayName.length ≤ 64) (hdi : r.diff.length < 10 ^ 10) :
    (diffSection pb r).length ≤ 148 + pb := by
  unfold diffSection
  rw [List.length_append, List.length_append, List.length_append,
    List.length_append]
  have h1 : ("<details><summary>".toList).length = 18 := by decide
  have h2 : ("</summary>\n\n".toList).length = 12 := by decide
  have h3 : ("\n\n</details>\n".toList).length = 13 := by decide
  have h4 := sanitizeDisplayName_length_le r.displayName
  have h5 := diffBody_length_le pb hdi
  omega

theorem commentHeader_length_le {results : List DiffResult}
    (h : ∀ r ∈ results, r.displayName.length ≤ 64) :
    (commentHeader results).length ≤ 102 := by
  unfold commentHeader
  cases results with
  | nil => decide
  | cons r rest =>
    cases rest with
    | nil =>
      show (("<!-- nix-diff-action:".toList ++ r.displayName ++ " -->".toList) ++
        "\n## Nix Diff\n".toList).length ≤ 102
      rw [List.length_append, List.length_append, List.length_append]
      have h1 : ("<!-- nix-diff-action:".toList).length = 21 := by decide
      have h2 : (" -->".toList).length = 4 := by decide
      have h3 : ("\n## Nix Diff\n".toList).length = 13 := by decide
      have h4 := h r (List.mem_cons_self _ _)
      omega
    | cons r2 rest2 =>
      show ("<!-- nix-diff-action -->".toList ++ "\n## Nix Diff\n".toList).length ≤ 102
      decide

theorem commentFooter_length_le {sha : List Char} (h : sha.length ≤ 64) :
    (commentFooter sha).length ≤ 221 := by
  unfold commentFooter
  rw [List.length_append, List.length_append, List.length_append]
  have h1 : ("\n<!-- nix-diff-action-footer sha=".toList).length = 33 := by decide
  have h2 : (" -->\n".toList).length = 5 := by decide
  have h3 : ("Generated by [nix-diff-action](https://github.com/natsukium/nix-diff-action) using [dix](https://github.com/faukah/dix)".toList).length = 119 :=
    by decide
  omega

theorem sections_length_le (pb : Nat) {results : List DiffResult}
    (h : ∀ r ∈ results, r.displayName.length ≤ 64 ∧ r.diff.length < 10 ^ 10) :
    ((results.map (diffSection pb)).flatten).length ≤
      results.length * (148 + pb) := by
  induction results with
  | nil => simp
  | cons r rest ih =>
    simp only [List.map_cons, List.flatten_cons, List.length_append,
      List.length_cons]
    have h1 := diffSection_length_le pb (h r (List.mem_cons_self _ _)).1
      (h r (List.mem_cons_self _ _)).2
    have h2 := ih (fun x hx => h x (List.mem_cons_of_mem _ hx))
    rw [Nat.succ_mul]
    omega

/-- Claim C2: with the global budget divided equally (`perResultBudget =
globalDiffBudget / N`), a diff strictly longer than its allotment is cut to
the allotment and marked with its original total length, a diff at or under
the allotment passes through byte-for-byte unmarked, the report is the
header, the per-result sections built from `truncateDiff` at that allotment,
and the footer — and (for runs within the stated size envelope: at most 20
results, display names at most 64 characters, diffs shorter than 10^10
characters, commit SHA at most 64 characters) the assembled report stays
strictly under the 65536-character ceiling. -/
theorem c2_fair_truncation (results : List DiffResult) (commitSha : List Char)
    (hne : results ≠ []) (hN : results.length ≤ 20)
    (hr : ∀ r ∈ results, r.displayName.length ≤ 64 ∧ r.diff.length < 10 ^ 10)
    (hsha : commitSha.length ≤ 64) :
    (∀ r ∈ results,
      (globalDiffBudget / results.length < r.diff.length →
        truncateDiff r.diff (globalDiffBudget / results.length) =
          ⟨r.diff.take (globalDiffBudget / results.length) ++
            truncationMarker r.diff.length, true⟩) ∧
      (r.diff.length ≤ globalDiffBudget / results.length →
        truncateDiff r.diff (globalDiffBudget / results.length) =
          ⟨r.diff, false⟩)) ∧
    formatAggregatedComment results commitSha =
      commentHeader results ++
        (results.map (diffSection (globalDiffBudget / results.length))).flatten ++
        commentFooter commitSha ∧
    (formatAggregatedComment results commitSha).length < commentHardCeiling := by
  refine ⟨?_, rfl, ?_⟩
  · intro r hrm
    constructor
    · intro hlt
      unfold truncateDiff
      rw [if_pos hlt]
    · intro hle
      unfold truncateDiff
      rw [if_neg (by omega)]
  · show (commentHeader results ++
      (results.map (diffSection (globalDiffBudget / results.length))).flatten ++
      commentFooter commitSha).length < commentHardCeiling
    rw [List.length_append, List.length_append]
    have hh := commentHeader_length_le (fun x hx => (hr x hx).1)
    have hf := commentFooter_length_le hsha
    have hs := sections_length_le (globalDiffBudget / results.length) hr
    have e1 : results.length * (148 + globalDiffBudget / results.length) =
        results.length * 148 +
          results.length * (globalDiffBudget / results.length) :=
      Nat.mul_add _ _ _
    have e2 : results.length * 148 ≤ 2960 := by
      calc results.length * 148 ≤ 20 * 148 := Nat.mul_le_mul_right 148 hN
        _ = 2960 := by norm_num
    have e3 : results.length * (globalDiffBudget / results.length) ≤ 60000 := by
      rw [Nat.mul_comm]
      exact Nat.div_mul_le_self 60000 results.length
    unfold commentHardCeiling
    omega

/-- Witness for C2 at a concrete single-result report. -/
theorem c2_witness :
    (resultsW ≠ [] ∧ resultsW.length ≤ 20 ∧
      (∀ r ∈ resultsW, r.displayName.length ≤ 64 ∧ r.diff.length < 10 ^ 10) ∧
      ("abc123".toList).length ≤ 64) ∧
    (formatAggregatedComment resultsW "abc123".toList).length <
      commentHardCeiling :=
  ⟨⟨by decide, by decide, by decide, by decide⟩,
   (c2_fair_truncation resultsW "abc123".toList (by decide) (by decide)
     (by decide) (by decide)).2.2⟩
